import Mathlib

/-!
Verification of the `ghii-engine-zod` validation adapter
(`src/ghiiEngineZod.ts`) against its specification.

The adapter is a thin bridge between a configuration-management host and the
Zod validation library (an external dependency).  The development embeds:

* a JSON-like model of the JavaScript values the adapter moves around
  (`Json`, `Value`);
* an extensional model of a Zod v4 schema (`ZodSchema`): its non-throwing
  `safeParse` behaviour and its `toJSONSchema` conversion result.  Zod is a
  third-party library, so it enters the embedding through this behavioural
  interface; the adapter code itself is translated line by line;
* models of the JavaScript builtins the adapter calls, `JSON.stringify`
  (with the `space` argument, per ECMA-262 SerializeJSON) and `JSON.parse`
  (restricted to the integer-valued numbers of the `Json` model);
* the adapter itself: `zodEngine`, its `validate` and `toJsonSchema`
  operations, and the issue-normalisation map.

JavaScript exceptions are embedded as `Except JsError`; a total Lean
function models a call that can never throw.
-/

/- JSON documents, used both for candidate configuration data and for the
result of the library's schema-to-JSON-Schema conversion.  Numbers are
modelled as integers (the adapter never computes with them; JSON-Schema
documents produced by the library in this repository's tests only contain
integers).  `JsonList` and `JsonFields` are inlined lists so that all
recursive functions below are structural. -/
mutual
/-- A JSON document of the embedded fragment. -/
inductive Json where
  | null
  | bool (b : Bool)
  | num (n : Int)
  | str (s : String)
  | arr (elems : JsonList)
  | obj (fields : JsonFields)
deriving DecidableEq
inductive JsonList where
  | nil
  | cons (hd : Json) (tl : JsonList)
deriving DecidableEq
inductive JsonFields where
  | nil
  | cons (key : String) (val : Json) (tl : JsonFields)
deriving DecidableEq
end

/-- A JavaScript runtime value as the adapter sees one: either `undefined`
or a JSON-like value.  The adapter treats candidate values and issue inputs
opaquely, so this fragment is enough. -/
inductive Value where
  | undef
  | json (j : Json)
deriving DecidableEq

/-- One segment of a Zod issue path: a property key or an array index. -/
inductive PathSeg where
  | key (s : String)
  | idx (n : Nat)
deriving DecidableEq

/-- One Zod v4 issue as reported on `result.error.issues`: the fields the
adapter reads (`path`, `input`, `code`, `message`) plus the remaining
library-specific diagnostic payload (`extra`), kept so that "retained
verbatim" is observable. -/
structure ZodIssue where
  path : List PathSeg
  input : Value
  code : String
  message : String
  extra : Json
deriving DecidableEq

/-- A JavaScript exception: a `TypeError` raised by the library when handed
a non-schema, a `ZodError` carrying issues (what the throwing `z.parse`
raises), or an arbitrary user exception (what a schema factory may throw). -/
inductive JsError where
  | typeError (message : String)
  | zodError (issues : List ZodIssue)
  | thrown (value : Value)
deriving DecidableEq

/-- The result of the library's non-throwing parse: Zod's
`\x7b success, data \x7d` / `\x7b success: false, error \x7d` union. -/
inductive SafeParseResult where
  | success (data : Value)
  | failure (issues : List ZodIssue)
deriving DecidableEq

/-- Extensional model of a Zod v4 schema: what `z.safeParse` returns on each
input (total: on a genuine schema the non-throwing entry point reports
failures in its return value), and what `z.toJSONSchema` produces for it
(`Except`, since conversion of unsupported constructs throws). -/
structure ZodSchema where
  check : Value → SafeParseResult
  jsonSchemaResult : Except JsError Json

/-- A non-callable JavaScript value in schema position: either a usable Zod
schema or any other value (the type system of the source rules the latter
out statically, but the runtime behaviour exists and section 7 of the spec
talks about it). -/
inductive SchemaVal where
  | zodSchema (s : ZodSchema)
  | notSchema (v : Value)

/-- The Zod module object `z` that `zodEngine` passes to a schema factory. -/
inductive ZodNamespace where
  | z
deriving DecidableEq

/-- Model of `z.safeParse(schema, value)`: delegates to the schema's own
non-throwing check; on a value that is not a schema it throws a
`TypeError`. -/
def zSafeParse : SchemaVal → Value → Except JsError SafeParseResult
  | .zodSchema s, v => .ok (s.check v)
  | .notSchema _, _ => .error (.typeError "z.safeParse: not a Zod schema")

/-- Model of the throwing variant `z.parse(schema, value)`: returns the
parsed data or throws the `ZodError`. -/
def zParse (sv : SchemaVal) (v : Value) : Except JsError Value :=
  match zSafeParse sv v with
  | .error e => .error e
  | .ok (.success d) => .ok d
  | .ok (.failure issues) => .error (.zodError issues)

/-- Model of `z.toJSONSchema(schema)`. -/
def zToJSONSchema : SchemaVal → Except JsError Json
  | .zodSchema s => s.jsonSchemaResult
  | .notSchema _ => .error (.typeError "z.toJSONSchema: not a Zod schema")

/-- Decimal digits of `n`, most significant first, via an explicit fuel so
that the definition is structural and kernel-reducible.  `natCharsFuel
fuel n` is correct whenever `n < fuel`. -/
def natCharsFuel : Nat → Nat → List Char
  | 0, _ => []
  | fuel + 1, n =>
    if n < 10 then [Char.ofNat (48 + n)]
    else natCharsFuel fuel (n / 10) ++ [Char.ofNat (48 + n % 10)]

/-- Decimal representation of a natural number, as JavaScript `String(n)`
prints an integer index or an integer JSON number. -/
def natChars (n : Nat) : List Char := natCharsFuel (n + 1) n

/-- Decimal representation of an integer, as `JSON.stringify` prints an
integer-valued number. -/
def intChars (n : Int) : List Char :=
  if n < 0 then '-' :: natChars n.natAbs else natChars n.natAbs

/-- JavaScript `String(segment)` for one path segment: property keys pass
through, array indices print in decimal.  `Array.prototype.join` applies
this to every element. -/
def segString : PathSeg → String
  | .key s => s
  | .idx n => ⟨natChars n⟩

/-- The adapter's path join, `issue.path.join(".")`: every segment rendered
as a string and concatenated with `.` separators; the empty path joins to
the empty string. -/
def joinPath (segs : List PathSeg) : String :=
  String.intercalate "." (segs.map segString)

/-- Lowercase hexadecimal digit, for the `\u00XX` escapes `JSON.stringify`
emits for control characters. -/
def hexDigit (n : Nat) : Char :=
  if n < 10 then Char.ofNat (48 + n) else Char.ofNat (87 + n)

/-- JSON string escaping of one character, per ECMA-262 QuoteJSONString:
quote, backslash and the named control escapes, `\u00XX` for the remaining
control characters, everything else verbatim. -/
def escapeChar (c : Char) : List Char :=
  if c = '"' then ['\\', '"']
  else if c = '\\' then ['\\', '\\']
  else if c = '\x08' then ['\\', 'b']
  else if c = '\x09' then ['\\', 't']
  else if c = '\x0a' then ['\\', 'n']
  else if c = '\x0c' then ['\\', 'f']
  else if c = '\x0d' then ['\\', 'r']
  else if c.toNat < 32 then
    ['\\', 'u', '0', '0', hexDigit (c.toNat / 16), hexDigit (c.toNat % 16)]
  else [c]

/-- Escaped body of a JSON string literal. -/
def escChars (s : String) : List Char := (s.data.map escapeChar).flatten

/-- A JSON string literal: quote, escaped body, quote. -/
def quoteChars (s : String) : List Char := '"' :: escChars s ++ ['"']

/- Model of `JSON.stringify(value, null, gap)` per ECMA-262 SerializeJSON:
with an empty `gap` the output is compact (no whitespace added anywhere);
with a non-empty `gap` each nesting level starts on a new line indented by
one more copy of `gap`, and a colon is followed by one space.  `ind` is the
indentation accumulated so far; `sep` is the separator placed between two
elements or members of the current level and `pad` the text after a colon,
both fixed per level by the `gap = []` test. -/
mutual
/-- Serialize one JSON value. -/
def stringifyJson (gap ind : List Char) : Json → List Char
  | .null => "null".data
  | .bool b => (if b then "true" else "false").data
  | .num n => intChars n
  | .str s => quoteChars s
  | .arr .nil => "[]".data
  | .arr (.cons e tl) =>
    if gap = [] then '[' :: stringifyElems [] [] [','] (.cons e tl) ++ [']']
    else
      '[' :: '\n' :: (ind ++ gap) ++
        stringifyElems gap (ind ++ gap) (',' :: '\n' :: (ind ++ gap)) (.cons e tl)
        ++ '\n' :: ind ++ [']']
  | .obj .nil => ['\x7b', '\x7d']
  | .obj (.cons k v tl) =>
    if gap = [] then '\x7b' :: stringifyMembers [] [] [','] [] (.cons k v tl) ++ ['\x7d']
    else
      '\x7b' :: '\n' :: (ind ++ gap) ++
        stringifyMembers gap (ind ++ gap) (',' :: '\n' :: (ind ++ gap)) [' '] (.cons k v tl)
        ++ '\n' :: ind ++ ['\x7d']
/-- Serialize array elements, separated by `sep`. -/
def stringifyElems (gap ind sep : List Char) : JsonList → List Char
  | .nil => []
  | .cons e .nil => stringifyJson gap ind e
  | .cons e (.cons e2 tl) =>
    stringifyJson gap ind e ++ sep ++ stringifyElems gap ind sep (.cons e2 tl)
/-- Serialize object members, `"key":<pad>value`, separated by `sep`. -/
def stringifyMembers (gap ind sep pad : List Char) : JsonFields → List Char
  | .nil => []
  | .cons k v .nil => quoteChars k ++ ':' :: pad ++ stringifyJson gap ind v
  | .cons k v (.cons k2 v2 tl) =>
    (quoteChars k ++ ':' :: pad ++ stringifyJson gap ind v) ++ sep ++
      stringifyMembers gap ind sep pad (.cons k2 v2 tl)
end

/-- Model of `JSON.stringify(value, null, space)` with a numeric `space`:
ECMA-262 clamps the count to ten and indents with that many spaces; zero
means compact output. -/
def jsonStringify (j : Json) (space : Nat) : String :=
  ⟨stringifyJson (List.replicate (min space 10) ' ') [] j⟩

/-- JSON insignificant whitespace. -/
def isJsonWs (c : Char) : Bool :=
  c = ' ' || c = '\x09' || c = '\x0a' || c = '\x0d'

/-- Drop leading JSON whitespace. -/
def skipWs : List Char → List Char
  | [] => []
  | c :: cs => if isJsonWs c then skipWs cs else c :: cs

/-- Expect a fixed sequence of characters and return the remainder. -/
def expectChars : List Char → List Char → Option (List Char)
  | [], rest => some rest
  | c :: p, x :: rest => if x = c then expectChars p rest else none
  | _ :: _, [] => none

/-- Value of a hexadecimal digit. -/
def unhex (c : Char) : Option Nat :=
  if '0' ≤ c ∧ c ≤ '9' then some (c.toNat - 48)
  else if 'a' ≤ c ∧ c ≤ 'f' then some (c.toNat - 87)
  else if 'A' ≤ c ∧ c ≤ 'F' then some (c.toNat - 55)
  else none

/-- Parse the body of a JSON string literal up to and past the closing
quote, returning the decoded characters and the remaining input.  Fueled so
that the definition is structural; any `fuel` larger than the number of
characters consumed is enough. -/
def parseStringBody : Nat → List Char → Option (List Char × List Char)
  | 0, _ => none
  | fuel + 1, input =>
    match input with
    | [] => none
    | c :: rest =>
      if c = '"' then some ([], rest)
      else if c = '\\' then
        match rest with
        | [] => none
        | e :: rest2 =>
          if e = '"' then (parseStringBody fuel rest2).map (fun p => ('"' :: p.1, p.2))
          else if e = '\\' then (parseStringBody fuel rest2).map (fun p => ('\\' :: p.1, p.2))
          else if e = '/' then (parseStringBody fuel rest2).map (fun p => ('/' :: p.1, p.2))
          else if e = 'b' then (parseStringBody fuel rest2).map (fun p => ('\x08' :: p.1, p.2))
          else if e = 'f' then (parseStringBody fuel rest2).map (fun p => ('\x0c' :: p.1, p.2))
          else if e = 'n' then (parseStringBody fuel rest2).map (fun p => ('\x0a' :: p.1, p.2))
          else if e = 'r' then (parseStringBody fuel rest2).map (fun p => ('\x0d' :: p.1, p.2))
          else if e = 't' then (parseStringBody fuel rest2).map (fun p => ('\x09' :: p.1, p.2))
          else if e = 'u' then
            match rest2 with
            | h1 :: h2 :: h3 :: h4 :: rest3 =>
              match unhex h1, unhex h2, unhex h3, unhex h4 with
              | some a, some b, some c3, some d =>
                let n := ((a * 16 + b) * 16 + c3) * 16 + d
                if n < 55296 ∨ (57344 ≤ n ∧ n < 1114112) then
                  (parseStringBody fuel rest3).map (fun p => (Char.ofNat n :: p.1, p.2))
                else none
              | _, _, _, _ => none
            | _ => none
          else none
      else if c.toNat < 32 then none
      else (parseStringBody fuel rest).map (fun p => (c :: p.1, p.2))

/-- Numeric value of a decimal digit character. -/
def digitVal (c : Char) : Nat := c.toNat - 48

/-- Consume a maximal run of decimal digits, folding them onto `acc`. -/
def parseDigits : List Char → Nat → Nat × List Char
  | [], acc => (acc, [])
  | c :: cs, acc => if c.isDigit then parseDigits cs (acc * 10 + digitVal c) else (acc, c :: cs)

/-- Parse an integer-valued JSON number: an optional minus sign and a run of
decimal digits. -/
def parseNumber : List Char → Option (Int × List Char)
  | [] => none
  | c :: cs =>
    if c = '-' then
      match cs with
      | [] => none
      | d :: ds =>
        if d.isDigit then
          let p := parseDigits ds (digitVal d)
          some (-(p.1 : Int), p.2)
        else none
    else if c.isDigit then
      let p := parseDigits cs (digitVal c)
      some ((p.1 : Int), p.2)
    else none

/- Recursive-descent JSON parser, modelling `JSON.parse` on the `Json`
fragment (integer-valued numbers).  `parseValue` skips leading whitespace
and parses one value; `parseElems` parses the elements of a non-empty array
up to and past the closing bracket; `parseMembers` parses the members of a
non-empty object up to and past the closing brace.  The fuel bounds the
nesting the parser will enter; it decreases on every nested value. -/
mutual
/-- Parse one JSON value. -/
def parseValue : Nat → List Char → Option (Json × List Char)
  | 0, _ => none
  | fuel + 1, input =>
    match skipWs input with
    | [] => none
    | c :: rest =>
      if c = 'n' then (expectChars "ull".data rest).map (fun r => (.null, r))
      else if c = 't' then (expectChars "rue".data rest).map (fun r => (.bool true, r))
      else if c = 'f' then (expectChars "alse".data rest).map (fun r => (.bool false, r))
      else if c = '"' then
        (parseStringBody (rest.length + 1) rest).map (fun p => (.str ⟨p.1⟩, p.2))
      else if c = '[' then
        match skipWs rest with
        | [] => none
        | c2 :: rest2 =>
          if c2 = ']' then some (.arr .nil, rest2)
          else (parseElems fuel (c2 :: rest2)).map (fun p => (.arr p.1, p.2))
      else if c = '\x7b' then
        match skipWs rest with
        | [] => none
        | c2 :: rest2 =>
          if c2 = '\x7d' then some (.obj .nil, rest2)
          else (parseMembers fuel (c2 :: rest2)).map (fun p => (.obj p.1, p.2))
      else (parseNumber (c :: rest)).map (fun p => (.num p.1, p.2))
/-- Parse the elements of a non-empty array, past the closing bracket. -/
def parseElems : Nat → List Char → Option (JsonList × List Char)
  | 0, _ => none
  | fuel + 1, input =>
    match parseValue fuel input with
    | none => none
    | some (j, rest) =>
      match skipWs rest with
      | [] => none
      | c :: rest2 =>
        if c = ',' then
          match parseElems fuel rest2 with
          | none => none
          | some (tl, r) => some (.cons j tl, r)
        else if c = ']' then some (.cons j .nil, rest2)
        else none
/-- Parse the members of a non-empty object, past the closing brace. -/
def parseMembers : Nat → List Char → Option (JsonFields × List Char)
  | 0, _ => none
  | fuel + 1, input =>
    match skipWs input with
    | [] => none
    | c :: rest =>
      if c = '"' then
        match parseStringBody (rest.length + 1) rest with
        | none => none
        | some (key, rest1) =>
          match skipWs rest1 with
          | [] => none
          | c1 :: rest2 =>
            if c1 = ':' then
              match parseValue fuel rest2 with
              | none => none
              | some (v, rest3) =>
                match skipWs rest3 with
                | [] => none
                | c2 :: rest4 =>
                  if c2 = ',' then
                    match parseMembers fuel rest4 with
                    | none => none
                    | some (tl, r) => some (.cons ⟨key⟩ v tl, r)
                  else if c2 = '\x7d' then some (.cons ⟨key⟩ v .nil, rest4)
                  else none
            else none
      else none
end

/-- Model of `JSON.parse(text)` on the embedded fragment: parse one value
and require only whitespace after it. -/
def jsonParse (s : String) : Option Json :=
  match parseValue (s.length + 1) s.data with
  | some (j, rest) => if skipWs rest = [] then some j else none
  | none => none

/- Fuel sufficient for `parseValue` on the printed form of a document (and
below, of an element or member list).  One unit per step the parser takes
before recursing. -/
mutual
/-- Fuel sufficient for `parseValue` on the printed form of `j`. -/
def fuelJson : Json → Nat
  | .null => 1
  | .bool _ => 1
  | .num _ => 1
  | .str _ => 1
  | .arr es => 1 + fuelList es
  | .obj fs => 1 + fuelFields fs
/-- Fuel sufficient for `parseElems` on printed elements. -/
def fuelList : JsonList → Nat
  | .nil => 1
  | .cons e tl => 1 + max (fuelJson e) (fuelList tl)
/-- Fuel sufficient for `parseMembers` on printed members. -/
def fuelFields : JsonFields → Nat
  | .nil => 1
  | .cons _ v tl => 1 + max (fuelJson v) (fuelFields tl)
end

/-- One normalised error record of the adapter's failure result (the element
shape of `errors` in `ghiiEngineZod.ts`): the dotted path, the offending
input, the failure-kind code, the human-readable message, and the raw
library issue retained verbatim. -/
structure Issue where
  path : String
  input : Value
  details : String
  message : String
  _raw : ZodIssue
deriving DecidableEq

/-- The adapter's validation outcome: the tagged union
`\x7b success: true, value \x7d | \x7b success: false, errors \x7d`. -/
inductive ValidationOutcome where
  | success (value : Value)
  | failure (errors : List Issue)
deriving DecidableEq

/-- The issue-normalisation map the adapter applies to every reported issue
(the arrow function inside `result.error.issues.map`). -/
def toIssue (issue : ZodIssue) : Issue :=
  { path := joinPath issue.path
    input := issue.input
    details := issue.code
    message := issue.message
    _raw := issue }

/-- The engine capability the adapter returns: the two operations, each a
JavaScript call that may in principle throw (`Except`). -/
structure GhiiEngine where
  validate : Value → Except JsError ValidationOutcome
  toJsonSchema : Bool → Except JsError String

/-- Body of the adapter's `validate`: `z.safeParse(_schema, toValidate)`,
then the success value passed through, or the issues mapped through
`toIssue`. -/
def zodEngineValidate (sv : SchemaVal) (toValidate : Value) : Except JsError ValidationOutcome :=
  match zSafeParse sv toValidate with
  | .error e => .error e
  | .ok (.success data) => .ok (.success data)
  | .ok (.failure issues) => .ok (.failure (issues.map toIssue))

/-- Body of the adapter's `toJsonSchema`:
`JSON.stringify(z.toJSONSchema(_schema), null, pretty ? 2 : 0)`. -/
def zodEngineToJsonSchema (sv : SchemaVal) (pretty : Bool) : Except JsError String :=
  match zToJSONSchema sv with
  | .error e => .error e
  | .ok js => .ok (jsonStringify js (if pretty then 2 else 0))

/-- The object literal `zodEngine` returns, closing over the retained
`_schema`. -/
def mkEngine (sv : SchemaVal) : GhiiEngine :=
  { validate := zodEngineValidate sv
    toJsonSchema := zodEngineToJsonSchema sv }

/-- The argument of `zodEngine`: a callable schema factory (which may throw)
or a non-callable value, discriminated by `typeof schema === "function"`. -/
inductive EngineInput where
  | factory (f : ZodNamespace → Except JsError SchemaVal)
  | direct (sv : SchemaVal)

/-- The `_schema` binding: `typeof schema === "function" ? schema(z) :
schema`.  A factory throw propagates; a non-callable value is retained as
is, whether or not it is a usable schema. -/
def retainedSchema : EngineInput → Except JsError SchemaVal
  | .factory f => f ZodNamespace.z
  | .direct sv => .ok sv

/-- The factory applications the constructor performs, in order, each
recorded with its argument: the conditional applies a callable input
exactly once, to the library namespace `z`, and applies a non-callable
input never. -/
def constructionFactoryCalls : EngineInput → List ZodNamespace
  | .factory _ => [ZodNamespace.z]
  | .direct _ => []

/-- The constructor `zodEngine`: resolve `_schema` (propagating a factory
throw uncaught) and return the engine object. -/
def zodEngine (input : EngineInput) : Except JsError GhiiEngine :=
  match retainedSchema input with
  | .error e => .error e
  | .ok sv => .ok (mkEngine sv)

/-- Calling `engine.toJsonSchema()` with no argument: the declared default
`pretty = false` is applied. -/
def toJsonSchemaDefault (e : GhiiEngine) : Except JsError String :=
  e.toJsonSchema false

/-- One call a host may place on the engine. -/
inductive EngineCall where
  | validate (v : Value)
  | toJsonSchema (pretty : Bool)

/-- The result of one engine call. -/
inductive CallResult where
  | validated (r : Except JsError ValidationOutcome)
  | serialized (r : Except JsError String)

/-- Small-step model of the engine's lifetime for the statelessness claim:
the adapter's entire state is the immutable `_schema` binding captured by
the two closures; neither operation reassigns anything, so a call returns
the state it was given. -/
def runCall (st : SchemaVal) : EngineCall → CallResult × SchemaVal
  | .validate v => (.validated (zodEngineValidate st v), st)
  | .toJsonSchema pretty => (.serialized (zodEngineToJsonSchema st pretty), st)

/-- Run a sequence of engine calls, threading the state. -/
def runCalls (st : SchemaVal) : List EngineCall → List CallResult × SchemaVal
  | [] => ([], st)
  | c :: cs =>
    let p := runCall st c
    let q := runCalls p.2 cs
    (p.1 :: q.1, q.2)

/-- A list made of JSON whitespace only. -/
def wsList (w : List Char) : Prop := ∀ c ∈ w, isJsonWs c = true

/-- A list that does not begin with a decimal digit (so a maximal digit run
ending right before it really ends there). -/
def notDigitStart : List Char → Prop
  | [] => True
  | c :: _ => c.isDigit = false

/-- Characters a serialized JSON value can begin with. -/
def valueStart (c : Char) : Bool :=
  c = 'n' || c = 't' || c = 'f' || c = '"' || c = '[' || c = '\x7b' || c = '-' || c.isDigit

/-- Concrete issue fixture: an empty `name`. -/
def issueName : ZodIssue :=
  { path := [.key "name"]
    input := Value.json (Json.str "")
    code := "too_small"
    message := "Too small: expected string to have 1 or more characters"
    extra := Json.null }

/-- Concrete issue fixture: a negative `age`. -/
def issueAge : ZodIssue :=
  { path := [.key "age"]
    input := Value.json (Json.num (-5))
    code := "too_small"
    message := "Too small: expected number to be at least 0"
    extra := Json.obj (.cons "minimum" (.num 0) .nil) }

/-- Concrete JSON-Schema document fixture. -/
def demoJsonSchema : Json :=
  .obj (.cons "type" (.str "object")
    (.cons "properties" (.obj (.cons "name" (.obj (.cons "type" (.str "string") .nil)) .nil))
      (.cons "required" (.arr (.cons (.str "name") .nil)) .nil)))

/-- Concrete schema behaviour fixture: accepts `true`, rejects everything
else with the two issues above. -/
def demoCheck (v : Value) : SafeParseResult :=
  match v with
  | .json (Json.bool true) => .success (.json (Json.bool true))
  | _ => .failure [issueName, issueAge]

/-- Concrete schema fixture. -/
def demoSchema : ZodSchema :=
  { check := demoCheck, jsonSchemaResult := .ok demoJsonSchema }

/-- Concrete factory fixture that returns `demoSchema`. -/
def demoFactory (_ : ZodNamespace) : Except JsError SchemaVal :=
  .ok (.zodSchema demoSchema)

/-- Concrete factory fixture that throws. -/
def throwingFactory (_ : ZodNamespace) : Except JsError SchemaVal :=
  .error (.thrown (Value.json (Json.str "factory failed")))

/-- Issue fixture whose single path segment contains a dot. -/
def issueDotSingle : ZodIssue :=
  { path := [.key "a.b"]
    input := Value.undef
    code := "custom"
    message := "msg"
    extra := Json.null }

/-- Issue fixture with two plain path segments. -/
def issueDotPair : ZodIssue :=
  { path := [.key "a", .key "b"]
    input := Value.undef
    code := "custom"
    message := "msg"
    extra := Json.null }

/-! Basic facts about whitespace skipping and fixed-text expectation. -/

theorem skipWs_cons_ws (c : Char) (l : List Char) (h : isJsonWs c = true) :
    skipWs (c :: l) = skipWs l := by
  simp [skipWs, h]

theorem skipWs_cons_not (c : Char) (l : List Char) (h : isJsonWs c = false) :
    skipWs (c :: l) = c :: l := by
  simp [skipWs, h]

theorem skipWs_ws_append (w l : List Char) (h : wsList w) :
    skipWs (w ++ l) = skipWs l := by
  induction w with
  | nil => rfl
  | cons c cs ih =>
    have hc : isJsonWs c = true := h c (by simp)
    have hcs : wsList cs := fun x hx => h x (by simp [hx])
    simp [List.cons_append, skipWs_cons_ws _ _ hc, ih hcs]

theorem expectChars_self (p : List Char) : ∀ rest, expectChars p (p ++ rest) = some rest := by
  induction p with
  | nil => intro rest; rfl
  | cons c cs ih => intro rest; simp [expectChars, ih]

/-! Digit characters. -/

theorem digit_ne (c d : Char) (h : c.isDigit = true) (hd : d.isDigit = false) : c ≠ d := by
  intro he
  subst he
  rw [h] at hd
  exact absurd hd (by decide)

theorem digit_not_ws (c : Char) (h : c.isDigit = true) : isJsonWs c = false := by
  cases hws : isJsonWs c with
  | false => rfl
  | true =>
    exfalso
    simp only [isJsonWs, Bool.or_eq_true, decide_eq_true_eq] at hws
    rcases hws with ((h1 | h1) | h1) | h1 <;> subst h1 <;> exact absurd h (by decide)

theorem ofNat_digit_isDigit (m : Nat) (h : m < 10) : (Char.ofNat (48 + m)).isDigit = true := by
  interval_cases m <;> decide

theorem digitVal_ofNat (m : Nat) (h : m < 10) : digitVal (Char.ofNat (48 + m)) = m := by
  interval_cases m <;> decide

/-! Decimal printing of naturals and integers, and its inverse. -/

theorem natCharsFuel_congr (f1 : Nat) : ∀ f2 n, n < f1 → n < f2 →
    natCharsFuel f1 n = natCharsFuel f2 n := by
  induction f1 with
  | zero => intro f2 n h _; omega
  | succ g ih =>
    intro f2 n h1 h2
    cases f2 with
    | zero => omega
    | succ k =>
      by_cases hn : n < 10
      · simp [natCharsFuel, hn]
      · simp only [natCharsFuel, if_neg hn]
        rw [ih (k) (n / 10) (by omega) (by omega)]

theorem natChars_eq_fuel (fuel n : Nat) (h : n < fuel) :
    natCharsFuel fuel n = natChars n :=
  natCharsFuel_congr fuel (n + 1) n h (by omega)

theorem natCharsFuel_digits (fuel : Nat) : ∀ n c, c ∈ natCharsFuel fuel n → c.isDigit = true := by
  induction fuel with
  | zero => intro n c h; simp [natCharsFuel] at h
  | succ g ih =>
    intro n c h
    by_cases hn : n < 10
    · simp only [natCharsFuel, if_pos hn, List.mem_singleton] at h
      subst h
      exact ofNat_digit_isDigit n hn
    · simp only [natCharsFuel, if_neg hn, List.mem_append, List.mem_singleton] at h
      rcases h with h | h
      · exact ih _ _ h
      · subst h
        exact ofNat_digit_isDigit _ (by omega)

theorem natChars_digits (n : Nat) : ∀ c ∈ natChars n, c.isDigit = true :=
  fun c hc => natCharsFuel_digits (n + 1) n c hc

theorem natChars_ne_nil (n : Nat) : natChars n ≠ [] := by
  unfold natChars natCharsFuel
  by_cases hn : n < 10 <;> simp [hn]

theorem parseDigits_stop (l : List Char) (acc : Nat) (h : notDigitStart l) :
    parseDigits l acc = (acc, l) := by
  cases l with
  | nil => rfl
  | cons c cs =>
    have hc : c.isDigit = false := h
    simp [parseDigits, hc]

theorem parseDigits_natCharsFuel (fuel : Nat) : ∀ n acc rest, n < fuel →
    parseDigits (natCharsFuel fuel n ++ rest) acc =
      parseDigits rest (acc * 10 ^ (natCharsFuel fuel n).length + n) := by
  induction fuel with
  | zero => intro n acc rest h; omega
  | succ g ih =>
    intro n acc rest h
    by_cases hn : n < 10
    · have hd := ofNat_digit_isDigit n hn
      simp [natCharsFuel, hn, parseDigits, hd, digitVal_ofNat n hn]
    · have hd := ofNat_digit_isDigit (n % 10) (by omega)
      simp only [natCharsFuel, if_neg hn, List.append_assoc, List.singleton_append]
      rw [ih (n / 10) acc _ (by omega)]
      simp only [parseDigits, hd, if_pos, digitVal_ofNat (n % 10) (by omega),
        List.length_append, List.length_singleton]
      congr 1
      have hmod : n / 10 * 10 + n % 10 = n := by omega
      calc (acc * 10 ^ (natCharsFuel g (n / 10)).length + n / 10) * 10 + n % 10
          = acc * (10 ^ (natCharsFuel g (n / 10)).length * 10) + (n / 10 * 10 + n % 10) := by
            ring
        _ = acc * 10 ^ ((natCharsFuel g (n / 10)).length + 1) + n := by
            rw [hmod, pow_succ]

theorem parseDigits_natChars_full (m : Nat) (rest : List Char) (h : notDigitStart rest) :
    parseDigits (natChars m ++ rest) 0 = (m, rest) := by
  rw [show natChars m = natCharsFuel (m + 1) m from rfl]
  rw [parseDigits_natCharsFuel (m + 1) m 0 rest (by omega)]
  simpa using parseDigits_stop rest m h

theorem parseDigits_head (m : Nat) (c : Char) (cs rest : List Char) (h : notDigitStart rest)
    (hnc : natChars m = c :: cs) :
    parseDigits (cs ++ rest) (digitVal c) = (m, rest) := by
  have hcd : c.isDigit = true := natChars_digits m c (by rw [hnc]; simp)
  have hfull := parseDigits_natChars_full m rest h
  rw [hnc] at hfull
  simpa [parseDigits, hcd] using hfull

theorem parseNumber_natChars (m : Nat) (rest : List Char) (h : notDigitStart rest) :
    parseNumber (natChars m ++ rest) = some ((m : Int), rest) := by
  cases hnc : natChars m with
  | nil => exact absurd hnc (natChars_ne_nil m)
  | cons c cs =>
    have hcd : c.isDigit = true := natChars_digits m c (by rw [hnc]; simp)
    have hne : c ≠ '-' := digit_ne c '-' hcd (by decide)
    have hstep := parseDigits_head m c cs rest h hnc
    simp [List.cons_append, parseNumber, hne, hcd, hstep]

theorem parseNumber_intChars (n : Int) (rest : List Char) (h : notDigitStart rest) :
    parseNumber (intChars n ++ rest) = some (n, rest) := by
  by_cases hn : n < 0
  · simp only [intChars, if_pos hn]
    cases hnc : natChars n.natAbs with
    | nil => exact absurd hnc (natChars_ne_nil _)
    | cons c cs =>
      have hcd : c.isDigit = true := natChars_digits _ c (by rw [hnc]; simp)
      have hstep := parseDigits_head n.natAbs c cs rest h hnc
      simp only [List.cons_append, hnc, parseNumber, hcd, if_pos, if_neg (by decide : ¬('-' : Char) ≠ '-')]
      simp only [if_pos (rfl : ('-' : Char) = '-'), hcd, if_true, hstep]
      have hval : -((n.natAbs : Nat) : Int) = n := by omega
      rw [hval]
  · simp only [intChars, if_neg hn]
    rw [parseNumber_natChars n.natAbs rest h]
    have hval : ((n.natAbs : Nat) : Int) = n := by omega
    rw [hval]

/-! String literal escaping and its inverse. -/

theorem unhex_hexDigit (m : Nat) (h : m < 16) : unhex (hexDigit m) = some m := by
  interval_cases m <;> decide

theorem escapeChar_length_pos (c : Char) : 1 ≤ (escapeChar c).length := by
  unfold escapeChar
  split_ifs <;> simp

theorem psb_named (f : Nat) (e c : Char) (l : List Char)
    (he : (e, c) = ('"', '"') ∨ (e, c) = ('\\', '\\') ∨ (e, c) = ('b', '\x08') ∨
          (e, c) = ('f', '\x0c') ∨ (e, c) = ('n', '\x0a') ∨ (e, c) = ('r', '\x0d') ∨
          (e, c) = ('t', '\x09')) :
    parseStringBody (f + 1) ('\\' :: e :: l) =
      (parseStringBody f l).map (fun p => (c :: p.1, p.2)) := by
  rcases he with he | he | he | he | he | he | he <;>
    (rw [Prod.mk.injEq] at he; obtain ⟨rfl, rfl⟩ := he; simp [parseStringBody])

theorem psb_u (f : Nat) (c : Char) (l : List Char) (hc : c.toNat < 32) :
    parseStringBody (f + 1)
        ('\\' :: 'u' :: '0' :: '0' :: hexDigit (c.toNat / 16) :: hexDigit (c.toNat % 16) :: l) =
      (parseStringBody f l).map (fun p => (c :: p.1, p.2)) := by
  have h3 : unhex (hexDigit (c.toNat / 16)) = some (c.toNat / 16) := unhex_hexDigit _ (by omega)
  have h4 : unhex (hexDigit (c.toNat % 16)) = some (c.toNat % 16) := unhex_hexDigit _ (by omega)
  have hn : ((0 * 16 + 0) * 16 + c.toNat / 16) * 16 + c.toNat % 16 = c.toNat := by omega
  have hn2 : c.toNat / 16 * 16 + c.toNat % 16 = c.toNat := by omega
  have hval : c.toNat < 55296 ∨ (57344 ≤ c.toNat ∧ c.toNat < 1114112) := Or.inl (by omega)
  simp [parseStringBody, h3, h4, hn, hn2, hval, Char.ofNat_toNat,
    show unhex '0' = some 0 from by decide]

theorem psb_lit (f : Nat) (c : Char) (l : List Char)
    (h1 : c ≠ '"') (h2 : c ≠ '\\') (h3 : ¬ c.toNat < 32) :
    parseStringBody (f + 1) (c :: l) = (parseStringBody f l).map (fun p => (c :: p.1, p.2)) := by
  simp [parseStringBody, h1, h2, h3]

theorem parseStringBody_escChars (cs : List Char) : ∀ fuel rest,
    ((cs.map escapeChar).flatten).length < fuel →
    parseStringBody fuel ((cs.map escapeChar).flatten ++ '"' :: rest) = some (cs, rest) := by
  induction cs with
  | nil =>
    intro fuel rest h
    cases fuel with
    | zero => simp at h
    | succ f => simp [parseStringBody]
  | cons c cs' ih =>
    intro fuel rest h
    cases fuel with
    | zero => simp at h
    | succ f =>
      have hec := escapeChar_length_pos c
      have hlen : ((cs'.map escapeChar).flatten).length < f := by
        simp only [List.map_cons, List.flatten_cons, List.length_append] at h
        omega
      have hrec := ih f rest hlen
      simp only [List.map_cons, List.flatten_cons, List.append_assoc]
      by_cases hq : c = '"'
      · subst hq
        rw [show escapeChar '"' = ['\\', '"'] from by decide]
        rw [show (['\\', '"'] : List Char) ++ ((cs'.map escapeChar).flatten ++ '"' :: rest) =
          '\\' :: '"' :: ((cs'.map escapeChar).flatten ++ '"' :: rest) from rfl]
        rw [psb_named f '"' '"' _ (Or.inl rfl), hrec]
        rfl
      · by_cases hbs : c = '\\'
        · subst hbs
          rw [show escapeChar '\\' = ['\\', '\\'] from by decide]
          rw [show (['\\', '\\'] : List Char) ++ ((cs'.map escapeChar).flatten ++ '"' :: rest) =
            '\\' :: '\\' :: ((cs'.map escapeChar).flatten ++ '"' :: rest) from rfl]
          rw [psb_named f '\\' '\\' _ (Or.inr (Or.inl rfl)), hrec]
          rfl
        · by_cases h08 : c = '\x08'
          · subst h08
            rw [show escapeChar '\x08' = ['\\', 'b'] from by decide]
            rw [show (['\\', 'b'] : List Char) ++ ((cs'.map escapeChar).flatten ++ '"' :: rest) =
              '\\' :: 'b' :: ((cs'.map escapeChar).flatten ++ '"' :: rest) from rfl]
            rw [psb_named f 'b' '\x08' _ (by simp), hrec]
            rfl
          · by_cases h09 : c = '\x09'
            · subst h09
              rw [show escapeChar '\x09' = ['\\', 't'] from by decide]
              rw [show (['\\', 't'] : List Char) ++ ((cs'.map escapeChar).flatten ++ '"' :: rest) =
                '\\' :: 't' :: ((cs'.map escapeChar).flatten ++ '"' :: rest) from rfl]
              rw [psb_named f 't' '\x09' _ (by simp), hrec]
              rfl
            · by_cases h0a : c = '\x0a'
              · subst h0a
                rw [show escapeChar '\x0a' = ['\\', 'n'] from by decide]
                rw [show (['\\', 'n'] : List Char) ++ ((cs'.map escapeChar).flatten ++ '"' :: rest) =
                  '\\' :: 'n' :: ((cs'.map escapeChar).flatten ++ '"' :: rest) from rfl]
                rw [psb_named f 'n' '\x0a' _ (by simp), hrec]
                rfl
              · by_cases h0c : c = '\x0c'
                · subst h0c
                  rw [show escapeChar '\x0c' = ['\\', 'f'] from by decide]
                  rw [show (['\\', 'f'] : List Char) ++ ((cs'.map escapeChar).flatten ++ '"' :: rest) =
                    '\\' :: 'f' :: ((cs'.map escapeChar).flatten ++ '"' :: rest) from rfl]
                  rw [psb_named f 'f' '\x0c' _ (by simp), hrec]
                  rfl
                · by_cases h0d : c = '\x0d'
                  · subst h0d
                    rw [show escapeChar '\x0d' = ['\\', 'r'] from by decide]
                    rw [show (['\\', 'r'] : List Char) ++ ((cs'.map escapeChar).flatten ++ '"' :: rest) =
                      '\\' :: 'r' :: ((cs'.map escapeChar).flatten ++ '"' :: rest) from rfl]
                    rw [psb_named f 'r' '\x0d' _ (by simp), hrec]
                    rfl
                  · by_cases hctl : c.toNat < 32
                    · have hesc : escapeChar c =
                          ['\\', 'u', '0', '0', hexDigit (c.toNat / 16), hexDigit (c.toNat % 16)] := by
                        unfold escapeChar
                        rw [if_neg hq, if_neg hbs, if_neg h08, if_neg h09, if_neg h0a,
                          if_neg h0c, if_neg h0d, if_pos hctl]
                      rw [hesc]
                      rw [show (['\\', 'u', '0', '0', hexDigit (c.toNat / 16),
                          hexDigit (c.toNat % 16)] : List Char) ++
                          ((cs'.map escapeChar).flatten ++ '"' :: rest) =
                        '\\' :: 'u' :: '0' :: '0' :: hexDigit (c.toNat / 16) ::
                          hexDigit (c.toNat % 16) ::
                          ((cs'.map escapeChar).flatten ++ '"' :: rest) from rfl]
                      rw [psb_u f c _ hctl, hrec]
                      rfl
                    · have hesc : escapeChar c = [c] := by
                        unfold escapeChar
                        rw [if_neg hq, if_neg hbs, if_neg h08, if_neg h09, if_neg h0a,
                          if_neg h0c, if_neg h0d, if_neg hctl]
                      rw [hesc]
                      rw [show ([c] : List Char) ++ ((cs'.map escapeChar).flatten ++ '"' :: rest) =
                        c :: ((cs'.map escapeChar).flatten ++ '"' :: rest) from rfl]
                      rw [psb_lit f c _ hq hbs hctl, hrec]
                      rfl

theorem parseStringBody_quote (s : String) (fuel : Nat) (rest : List Char)
    (h : (escChars s).length < fuel) :
    parseStringBody fuel (escChars s ++ '"' :: rest) = some (s.data, rest) :=
  parseStringBody_escChars s.data fuel rest h

/-! Shape of serialized output: every printed value starts with a
distinctive non-whitespace character. -/

theorem valueStart_not_ws (c : Char) (h : valueStart c = true) : isJsonWs c = false := by
  simp only [valueStart, Bool.or_eq_true, decide_eq_true_eq] at h
  rcases h with ((((((h | h) | h) | h) | h) | h) | h) | h
  · subst h; decide
  · subst h; decide
  · subst h; decide
  · subst h; decide
  · subst h; decide
  · subst h; decide
  · subst h; decide
  · exact digit_not_ws c h

theorem valueStart_ne (c d : Char) (h : valueStart c = true) (hd : valueStart d = false) :
    c ≠ d := by
  intro he
  subst he
  rw [h] at hd
  exact absurd hd (by decide)

theorem intChars_start (n : Int) : ∃ c t, intChars n = c :: t ∧ (c = '-' ∨ c.isDigit = true) := by
  unfold intChars
  by_cases hn : n < 0
  · exact ⟨'-', natChars n.natAbs, by simp [hn], Or.inl rfl⟩
  · cases hnc : natChars n.natAbs with
    | nil => exact absurd hnc (natChars_ne_nil _)
    | cons c cs =>
      exact ⟨c, cs, by simp [hn, hnc], Or.inr (natChars_digits _ c (by rw [hnc]; simp))⟩

theorem stringifyElems_cons_decomp (gap ind sep : List Char) (e : Json) (tl : JsonList) :
    ∃ t, stringifyElems gap ind sep (.cons e tl) = stringifyJson gap ind e ++ t := by
  cases tl with
  | nil => exact ⟨[], by simp [stringifyElems]⟩
  | cons e2 tl2 =>
    refine ⟨sep ++ stringifyElems gap ind sep (.cons e2 tl2), ?_⟩
    simp [stringifyElems, List.append_assoc]

theorem stringifyMembers_cons_decomp (gap ind sep pad : List Char) (k : String) (v : Json)
    (tl : JsonFields) :
    ∃ t, stringifyMembers gap ind sep pad (.cons k v tl) = quoteChars k ++ t := by
  cases tl with
  | nil =>
    refine ⟨':' :: (pad ++ stringifyJson gap ind v), ?_⟩
    simp [stringifyMembers]
  | cons k2 v2 tl2 =>
    refine ⟨':' :: (pad ++ (stringifyJson gap ind v ++
      (sep ++ stringifyMembers gap ind sep pad (.cons k2 v2 tl2)))), ?_⟩
    simp [stringifyMembers, List.append_assoc]

theorem stringifyJson_start (gap ind : List Char) (j : Json) :
    ∃ c t, stringifyJson gap ind j = c :: t ∧ valueStart c = true := by
  cases j with
  | null => exact ⟨'n', _, rfl, by decide⟩
  | bool b =>
    cases b with
    | false => exact ⟨'f', _, rfl, by decide⟩
    | true => exact ⟨'t', _, rfl, by decide⟩
  | num n =>
    obtain ⟨c, t, hct, hc⟩ := intChars_start n
    refine ⟨c, t, by simp [stringifyJson, hct], ?_⟩
    rcases hc with rfl | hc
    · decide
    · simp [valueStart, hc]
  | str s => exact ⟨'"', escChars s ++ ['"'], rfl, by decide⟩
  | arr es =>
    cases es with
    | nil => exact ⟨'[', _, rfl, by decide⟩
    | cons e tl =>
      by_cases hg : gap = []
      · have h1 : stringifyJson gap ind (.arr (.cons e tl)) =
            '[' :: (stringifyElems [] [] [','] (.cons e tl) ++ [']']) := by
          simp only [stringifyJson, if_pos hg]
          simp [List.cons_append, List.append_assoc]
        exact ⟨'[', _, h1, by decide⟩
      · have h1 : stringifyJson gap ind (.arr (.cons e tl)) =
            '[' :: ('\n' :: (ind ++ gap) ++
              stringifyElems gap (ind ++ gap) (',' :: '\n' :: (ind ++ gap)) (.cons e tl)
              ++ '\n' :: ind ++ [']']) := by
          simp only [stringifyJson, if_neg hg]
          simp [List.cons_append, List.append_assoc]
        exact ⟨'[', _, h1, by decide⟩
  | obj fs =>
    cases fs with
    | nil => exact ⟨'\x7b', _, rfl, by decide⟩
    | cons k v tl =>
      by_cases hg : gap = []
      · have h1 : stringifyJson gap ind (.obj (.cons k v tl)) =
            '\x7b' :: (stringifyMembers [] [] [','] [] (.cons k v tl) ++ ['\x7d']) := by
          simp only [stringifyJson, if_pos hg]
          simp [List.cons_append, List.append_assoc]
        exact ⟨'\x7b', _, h1, by decide⟩
      · have h1 : stringifyJson gap ind (.obj (.cons k v tl)) =
            '\x7b' :: ('\n' :: (ind ++ gap) ++
              stringifyMembers gap (ind ++ gap) (',' :: '\n' :: (ind ++ gap)) [' '] (.cons k v tl)
              ++ '\n' :: ind ++ ['\x7d']) := by
          simp only [stringifyJson, if_neg hg]
          simp [List.cons_append, List.append_assoc]
        exact ⟨'\x7b', _, h1, by decide⟩

theorem fuelJson_pos (j : Json) : 1 ≤ fuelJson j := by
  cases j <;> simp [fuelJson]

theorem stringifyJson_len_pos (gap ind : List Char) (j : Json) :
    1 ≤ (stringifyJson gap ind j).length := by
  obtain ⟨c, t, hct, _⟩ := stringifyJson_start gap ind j
  simp [hct]

/-! The parser fuel needed for a document is at most the length of its
serialized form (plus one for element and member lists). -/

mutual
theorem fuelJson_le_len (gap ind : List Char) (j : Json) :
    fuelJson j ≤ (stringifyJson gap ind j).length := by
  cases j with
  | null => simp [fuelJson, stringifyJson]
  | bool b => cases b <;> simp [fuelJson, stringifyJson]
  | num n =>
    obtain ⟨c, t, hct, _⟩ := intChars_start n
    simp [fuelJson, stringifyJson, hct]
  | str s => simp [fuelJson, stringifyJson, quoteChars]
  | arr es =>
    cases es with
    | nil => simp [fuelJson, fuelList, stringifyJson]
    | cons e tl =>
      have h1 := fuelList_le_len [] [] [','] (JsonList.cons e tl)
      have h2 := fuelList_le_len gap (ind ++ gap) (',' :: '\n' :: (ind ++ gap))
        (JsonList.cons e tl)
      by_cases hg : gap = [] <;>
        simp only [fuelJson, stringifyJson, if_pos, if_neg, hg, if_true, if_false,
          List.length_cons, List.length_append, List.length_singleton] <;>
        [skip; skip] <;> omega
  | obj fs =>
    cases fs with
    | nil => simp [fuelJson, fuelFields, stringifyJson]
    | cons k v tl =>
      have h1 := fuelFields_le_len [] [] [','] [] (JsonFields.cons k v tl)
      have h2 := fuelFields_le_len gap (ind ++ gap) (',' :: '\n' :: (ind ++ gap)) [' ']
        (JsonFields.cons k v tl)
      by_cases hg : gap = [] <;>
        simp only [fuelJson, stringifyJson, if_pos, if_neg, hg, if_true, if_false,
          List.length_cons, List.length_append, List.length_singleton] <;>
        [skip; skip] <;> omega
theorem fuelList_le_len (gap ind sep : List Char) (es : JsonList) :
    fuelList es ≤ (stringifyElems gap ind sep es).length + 1 := by
  cases es with
  | nil => simp [fuelList, stringifyElems]
  | cons e tl =>
    have he := fuelJson_le_len gap ind e
    have hp := stringifyJson_len_pos gap ind e
    cases tl with
    | nil =>
      have h1 : fuelList (JsonList.cons e JsonList.nil) = 1 + max (fuelJson e) 1 := rfl
      have h2 : stringifyElems gap ind sep (JsonList.cons e JsonList.nil) =
          stringifyJson gap ind e := rfl
      rw [h1, h2]
      omega
    | cons e2 tl2 =>
      have ht := fuelList_le_len gap ind sep (JsonList.cons e2 tl2)
      have h1 : fuelList (JsonList.cons e (JsonList.cons e2 tl2)) =
          1 + max (fuelJson e) (fuelList (JsonList.cons e2 tl2)) := rfl
      have h2 : stringifyElems gap ind sep (JsonList.cons e (JsonList.cons e2 tl2)) =
          stringifyJson gap ind e ++ sep ++ stringifyElems gap ind sep (JsonList.cons e2 tl2) := rfl
      rw [h1, h2]
      simp only [List.length_append]
      omega
theorem fuelFields_le_len (gap ind sep pad : List Char) (fs : JsonFields) :
    fuelFields fs ≤ (stringifyMembers gap ind sep pad fs).length + 1 := by
  cases fs with
  | nil => simp [fuelFields, stringifyMembers]
  | cons k v tl =>
    have he := fuelJson_le_len gap ind v
    have hp := stringifyJson_len_pos gap ind v
    cases tl with
    | nil =>
      have h1 : fuelFields (JsonFields.cons k v JsonFields.nil) = 1 + max (fuelJson v) 1 := rfl
      have h2 : stringifyMembers gap ind sep pad (JsonFields.cons k v JsonFields.nil) =
          quoteChars k ++ ':' :: pad ++ stringifyJson gap ind v := rfl
      rw [h1, h2]
      simp only [List.length_append, List.length_cons]
      omega
    | cons k2 v2 tl2 =>
      have ht := fuelFields_le_len gap ind sep pad (JsonFields.cons k2 v2 tl2)
      have h1 : fuelFields (JsonFields.cons k v (JsonFields.cons k2 v2 tl2)) =
          1 + max (fuelJson v) (fuelFields (JsonFields.cons k2 v2 tl2)) := rfl
      have h2 : stringifyMembers gap ind sep pad (JsonFields.cons k v (JsonFields.cons k2 v2 tl2)) =
          (quoteChars k ++ ':' :: pad ++ stringifyJson gap ind v) ++ sep ++
            stringifyMembers gap ind sep pad (JsonFields.cons k2 v2 tl2) := rfl
      rw [h1, h2]
      simp only [List.length_append, List.length_cons]
      omega
end

/-! Whitespace bookkeeping. -/

theorem ws_not_digit (c : Char) (h : isJsonWs c = true) : c.isDigit = false := by
  simp only [isJsonWs, Bool.or_eq_true, decide_eq_true_eq] at h
  rcases h with ((h1 | h1) | h1) | h1 <;> subst h1 <;> decide

theorem wsList_nil : wsList [] := fun c hc => absurd hc (List.not_mem_nil c)

theorem wsList_cons (c : Char) (l : List Char) (hc : isJsonWs c = true) (hl : wsList l) :
    wsList (c :: l) := by
  intro x hx
  rcases List.mem_cons.mp hx with rfl | hx
  · exact hc
  · exact hl x hx

theorem wsList_append (a b : List Char) (ha : wsList a) (hb : wsList b) : wsList (a ++ b) := by
  intro x hx
  rcases List.mem_append.mp hx with hx | hx
  · exact ha x hx
  · exact hb x hx

theorem notDigitStart_append_ws (w l : List Char) (hw : wsList w) (hl : notDigitStart l) :
    notDigitStart (w ++ l) := by
  cases w with
  | nil => exact hl
  | cons c cs => exact ws_not_digit c (hw c (by simp))

theorem notDigitStart_cons (c : Char) (l : List Char) (h : c.isDigit = false) :
    notDigitStart (c :: l) := h

theorem skipWs_stringify (gap ind w rest : List Char) (j : Json) (hw : wsList w) :
    skipWs (w ++ (stringifyJson gap ind j ++ rest)) = stringifyJson gap ind j ++ rest := by
  obtain ⟨c0, t0, hct, hvs⟩ := stringifyJson_start gap ind j
  rw [skipWs_ws_append _ _ hw, hct, List.cons_append]
  exact skipWs_cons_not _ _ (valueStart_not_ws c0 hvs)

/-! Reduction of `parseValue` at each kind of first character. -/

theorem numStart_ne (c : Char) (hc : c = '-' ∨ c.isDigit = true) (d : Char)
    (hd1 : d ≠ '-') (hd2 : d.isDigit = false) : c ≠ d := by
  rcases hc with rfl | hc
  · exact fun he => hd1 he.symm
  · exact digit_ne c d hc hd2

theorem parseValue_at_null (f : Nat) (input r : List Char)
    (h : skipWs input = 'n' :: ("ull".data ++ r)) :
    parseValue (f + 1) input = some (.null, r) := by
  simp [parseValue, h, expectChars]

theorem parseValue_at_true (f : Nat) (input r : List Char)
    (h : skipWs input = 't' :: ("rue".data ++ r)) :
    parseValue (f + 1) input = some (.bool true, r) := by
  simp [parseValue, h, expectChars]

theorem parseValue_at_false (f : Nat) (input r : List Char)
    (h : skipWs input = 'f' :: ("alse".data ++ r)) :
    parseValue (f + 1) input = some (.bool false, r) := by
  simp [parseValue, h, expectChars]

theorem parseValue_at_quote (f : Nat) (input r : List Char)
    (h : skipWs input = '"' :: r) :
    parseValue (f + 1) input =
      (parseStringBody (r.length + 1) r).map (fun p => (.str ⟨p.1⟩, p.2)) := by
  simp [parseValue, h]

theorem parseValue_at_num (f : Nat) (input : List Char) (c : Char) (r : List Char)
    (h : skipWs input = c :: r) (hc : c = '-' ∨ c.isDigit = true) :
    parseValue (f + 1) input = (parseNumber (c :: r)).map (fun p => (.num p.1, p.2)) := by
  have h1 : c ≠ 'n' := numStart_ne c hc 'n' (by decide) (by decide)
  have h2 : c ≠ 't' := numStart_ne c hc 't' (by decide) (by decide)
  have h3 : c ≠ 'f' := numStart_ne c hc 'f' (by decide) (by decide)
  have h4 : c ≠ '"' := numStart_ne c hc '"' (by decide) (by decide)
  have h5 : c ≠ '[' := numStart_ne c hc '[' (by decide) (by decide)
  have h6 : c ≠ '\x7b' := numStart_ne c hc '\x7b' (by decide) (by decide)
  simp [parseValue, h, h1, h2, h3, h4, h5, h6]

theorem parseValue_at_arr_nil (f : Nat) (input r r2 : List Char)
    (h : skipWs input = '[' :: r) (h2 : skipWs r = ']' :: r2) :
    parseValue (f + 1) input = some (.arr .nil, r2) := by
  simp [parseValue, h, h2]

theorem parseValue_at_arr (f : Nat) (input r : List Char) (c2 : Char) (r2 : List Char)
    (h : skipWs input = '[' :: r) (h2 : skipWs r = c2 :: r2) (hc2 : c2 ≠ ']') :
    parseValue (f + 1) input = (parseElems f (c2 :: r2)).map (fun p => (.arr p.1, p.2)) := by
  simp [parseValue, h, h2, hc2]

theorem parseValue_at_obj_nil (f : Nat) (input r r2 : List Char)
    (h : skipWs input = '\x7b' :: r) (h2 : skipWs r = '\x7d' :: r2) :
    parseValue (f + 1) input = some (.obj .nil, r2) := by
  simp [parseValue, h, h2]

theorem parseValue_at_obj (f : Nat) (input r : List Char) (c2 : Char) (r2 : List Char)
    (h : skipWs input = '\x7b' :: r) (h2 : skipWs r = c2 :: r2) (hc2 : c2 ≠ '\x7d') :
    parseValue (f + 1) input = (parseMembers f (c2 :: r2)).map (fun p => (.obj p.1, p.2)) := by
  simp [parseValue, h, h2, hc2]

/-! The round trip: parsing the serialized form of a document (with any
whitespace-only gap and indentation, leading whitespace, and a suffix that
does not begin with a digit) recovers the document exactly. -/

mutual
theorem parse_stringify (fuel : Nat) (gap ind w rest : List Char) (j : Json)
    (hg : wsList gap) (hi : wsList ind) (hw : wsList w) (hr : notDigitStart rest)
    (hf : fuelJson j ≤ fuel) :
    parseValue fuel (w ++ (stringifyJson gap ind j ++ rest)) = some (j, rest) := by
  cases fuel with
  | zero => exact absurd hf (by have := fuelJson_pos j; omega)
  | succ f =>
    have hskip := skipWs_stringify gap ind w rest j hw
    cases j with
    | null => exact parseValue_at_null f _ rest (by rw [hskip]; rfl)
    | bool b =>
      cases b with
      | true => exact parseValue_at_true f _ rest (by rw [hskip]; rfl)
      | false => exact parseValue_at_false f _ rest (by rw [hskip]; rfl)
    | num n =>
      obtain ⟨c, t, hct, hc⟩ := intChars_start n
      have hh : skipWs (w ++ (stringifyJson gap ind (.num n) ++ rest)) = c :: (t ++ rest) := by
        rw [hskip]
        show intChars n ++ rest = _
        rw [hct, List.cons_append]
      rw [parseValue_at_num f _ c (t ++ rest) hh hc]
      have hback : c :: (t ++ rest) = intChars n ++ rest := by rw [hct, List.cons_append]
      rw [hback, parseNumber_intChars n rest hr]
      rfl
    | str s =>
      have hh : skipWs (w ++ (stringifyJson gap ind (.str s) ++ rest)) =
          '"' :: (escChars s ++ '"' :: rest) := by
        rw [hskip]
        show quoteChars s ++ rest = _
        simp [quoteChars, List.append_assoc]
      rw [parseValue_at_quote f _ _ hh]
      rw [parseStringBody_quote s _ rest (by simp [List.length_append]; omega)]
      rfl
    | arr es =>
      cases es with
      | nil =>
        have hh : skipWs (w ++ (stringifyJson gap ind (.arr .nil) ++ rest)) =
            '[' :: (']' :: rest) := by rw [hskip]; rfl
        exact parseValue_at_arr_nil f _ _ _ hh (skipWs_cons_not _ _ (by decide))
      | cons e tl =>
        have hfl : fuelList (JsonList.cons e tl) ≤ f := by
          have h1 : fuelJson (Json.arr (JsonList.cons e tl)) =
              1 + fuelList (JsonList.cons e tl) := rfl
          omega
        by_cases hgap : gap = []
        · subst hgap
          have hS : stringifyJson [] ind (.arr (.cons e tl)) ++ rest =
              '[' :: (stringifyElems [] [] [','] (.cons e tl) ++ (']' :: rest)) := by
            simp [stringifyJson, List.append_assoc]
          obtain ⟨c2, t2, hc2t, hvs2⟩ := stringifyJson_start [] [] e
          obtain ⟨t1, ht1⟩ := stringifyElems_cons_decomp [] [] [','] e tl
          have hE : stringifyElems [] [] [','] (.cons e tl) ++ (']' :: rest) =
              c2 :: (t2 ++ (t1 ++ (']' :: rest))) := by
            rw [ht1, hc2t]
            simp [List.append_assoc]
          have h2 : skipWs (stringifyElems [] [] [','] (.cons e tl) ++ (']' :: rest)) =
              c2 :: (t2 ++ (t1 ++ (']' :: rest))) := by
            rw [hE]
            exact skipWs_cons_not _ _ (valueStart_not_ws c2 hvs2)
          rw [parseValue_at_arr f _ _ c2 _ (by rw [hskip, hS]) h2
            (valueStart_ne c2 ']' hvs2 (by decide))]
          rw [← hE]
          have hQ := parseElems_stringify f [] [] [] [] [] rest e tl
            wsList_nil wsList_nil wsList_nil wsList_nil wsList_nil hfl
          simp only [List.nil_append] at hQ
          rw [hQ]
          rfl
        · have hS : stringifyJson gap ind (.arr (.cons e tl)) ++ rest =
              '[' :: ('\n' :: ((ind ++ gap) ++
                (stringifyElems gap (ind ++ gap) (',' :: ('\n' :: (ind ++ gap)))
                    (.cons e tl) ++
                  ('\n' :: (ind ++ (']' :: rest)))))) := by
            simp only [stringifyJson, if_neg hgap]
            simp [List.append_assoc]
          obtain ⟨c2, t2, hc2t, hvs2⟩ :=
            stringifyJson_start gap (ind ++ gap) e
          obtain ⟨t1, ht1⟩ := stringifyElems_cons_decomp gap (ind ++ gap)
            (',' :: ('\n' :: (ind ++ gap))) e tl
          have hE : stringifyElems gap (ind ++ gap) (',' :: ('\n' :: (ind ++ gap)))
                (.cons e tl) ++ ('\n' :: (ind ++ (']' :: rest))) =
              c2 :: (t2 ++ (t1 ++ ('\n' :: (ind ++ (']' :: rest))))) := by
            rw [ht1, hc2t]
            simp [List.append_assoc]
          have h2 : skipWs ('\n' :: ((ind ++ gap) ++
                (stringifyElems gap (ind ++ gap) (',' :: ('\n' :: (ind ++ gap)))
                    (.cons e tl) ++
                  ('\n' :: (ind ++ (']' :: rest)))))) =
              c2 :: (t2 ++ (t1 ++ ('\n' :: (ind ++ (']' :: rest))))) := by
            rw [skipWs_cons_ws _ _ (by decide),
              skipWs_ws_append _ _ (wsList_append _ _ hi hg), hE]
            exact skipWs_cons_not _ _ (valueStart_not_ws c2 hvs2)
          rw [parseValue_at_arr f _ _ c2 _ (by rw [hskip, hS]) h2
            (valueStart_ne c2 ']' hvs2 (by decide))]
          rw [← hE]
          have hQ := parseElems_stringify f gap (ind ++ gap) ('\n' :: (ind ++ gap)) []
            ('\n' :: ind) rest e tl hg (wsList_append _ _ hi hg)
            (wsList_cons _ _ (by decide) (wsList_append _ _ hi hg))
            wsList_nil (wsList_cons _ _ (by decide) hi) hfl
          simp only [List.nil_append, List.cons_append] at hQ
          rw [hQ]
          rfl
    | obj fs =>
      cases fs with
      | nil =>
        have hh : skipWs (w ++ (stringifyJson gap ind (.obj .nil) ++ rest)) =
            '\x7b' :: ('\x7d' :: rest) := by rw [hskip]; rfl
        exact parseValue_at_obj_nil f _ _ _ hh (skipWs_cons_not _ _ (by decide))
      | cons k v tl =>
        have hfl : fuelFields (JsonFields.cons k v tl) ≤ f := by
          have h1 : fuelJson (Json.obj (JsonFields.cons k v tl)) =
              1 + fuelFields (JsonFields.cons k v tl) := rfl
          omega
        by_cases hgap : gap = []
        · subst hgap
          have hS : stringifyJson [] ind (.obj (.cons k v tl)) ++ rest =
              '\x7b' :: (stringifyMembers [] [] [','] [] (.cons k v tl) ++
                ('\x7d' :: rest)) := by
            simp [stringifyJson, List.append_assoc]
          obtain ⟨t1, ht1⟩ := stringifyMembers_cons_decomp [] [] [','] [] k v tl
          have hE : stringifyMembers [] [] [','] [] (.cons k v tl) ++ ('\x7d' :: rest) =
              '"' :: (escChars k ++ ('"' :: (t1 ++ ('\x7d' :: rest)))) := by
            rw [ht1]
            simp [quoteChars, List.append_assoc]
          have h2 : skipWs (stringifyMembers [] [] [','] [] (.cons k v tl) ++
                ('\x7d' :: rest)) =
              '"' :: (escChars k ++ ('"' :: (t1 ++ ('\x7d' :: rest)))) := by
            rw [hE]
            exact skipWs_cons_not _ _ (by decide)
          rw [parseValue_at_obj f _ _ '"' _ (by rw [hskip, hS]) h2 (by decide)]
          rw [← hE]
          have hR := parseMembers_stringify f [] [] [] [] [] [] rest k v tl
            wsList_nil wsList_nil wsList_nil wsList_nil wsList_nil wsList_nil hfl
          simp only [List.nil_append] at hR
          rw [hR]
          rfl
        · have hS : stringifyJson gap ind (.obj (.cons k v tl)) ++ rest =
              '\x7b' :: ('\n' :: ((ind ++ gap) ++
                (stringifyMembers gap (ind ++ gap) (',' :: ('\n' :: (ind ++ gap))) [' ']
                    (.cons k v tl) ++
                  ('\n' :: (ind ++ ('\x7d' :: rest)))))) := by
            simp only [stringifyJson, if_neg hgap]
            simp [List.append_assoc]
          obtain ⟨t1, ht1⟩ := stringifyMembers_cons_decomp gap (ind ++ gap)
            (',' :: ('\n' :: (ind ++ gap))) [' '] k v tl
          have hE : stringifyMembers gap (ind ++ gap) (',' :: ('\n' :: (ind ++ gap))) [' ']
                (.cons k v tl) ++ ('\n' :: (ind ++ ('\x7d' :: rest))) =
              '"' :: (escChars k ++ ('"' :: (t1 ++ ('\n' :: (ind ++ ('\x7d' :: rest)))))) := by
            rw [ht1]
            simp [quoteChars, List.append_assoc]
          have h2 : skipWs ('\n' :: ((ind ++ gap) ++
                (stringifyMembers gap (ind ++ gap) (',' :: ('\n' :: (ind ++ gap))) [' ']
                    (.cons k v tl) ++
                  ('\n' :: (ind ++ ('\x7d' :: rest)))))) =
              '"' :: (escChars k ++ ('"' :: (t1 ++ ('\n' :: (ind ++ ('\x7d' :: rest)))))) := by
            rw [skipWs_cons_ws _ _ (by decide),
              skipWs_ws_append _ _ (wsList_append _ _ hi hg), hE]
            exact skipWs_cons_not _ _ (by decide)
          rw [parseValue_at_obj f _ _ '"' _ (by rw [hskip, hS]) h2 (by decide)]
          rw [← hE]
          have hR := parseMembers_stringify f gap (ind ++ gap) ('\n' :: (ind ++ gap)) [' ']
            [] ('\n' :: ind) rest k v tl hg (wsList_append _ _ hi hg)
            (wsList_cons _ _ (by decide) (wsList_append _ _ hi hg))
            (wsList_cons _ _ (by decide) wsList_nil)
            wsList_nil (wsList_cons _ _ (by decide) hi) hfl
          simp only [List.nil_append, List.cons_append] at hR
          rw [hR]
          rfl

theorem parseElems_stringify (fuel : Nat) (gap ind sw w0 w rest : List Char)
    (e : Json) (tl : JsonList)
    (hg : wsList gap) (hi : wsList ind) (hsw : wsList sw) (hw0 : wsList w0) (hw : wsList w)
    (hf : fuelList (JsonList.cons e tl) ≤ fuel) :
    parseElems fuel
        (w0 ++ (stringifyElems gap ind (',' :: sw) (JsonList.cons e tl) ++
          (w ++ (']' :: rest)))) =
      some (JsonList.cons e tl, rest) := by
  cases fuel with
  | zero =>
    exact absurd hf (by
      have h1 : fuelList (JsonList.cons e tl) = 1 + max (fuelJson e) (fuelList tl) := rfl
      omega)
  | succ f =>
    cases tl with
    | nil =>
      have hfe : fuelJson e ≤ f := by
        have h1 : fuelList (JsonList.cons e JsonList.nil) = 1 + max (fuelJson e) 1 := rfl
        omega
      have hP := parse_stringify f gap ind w0 (w ++ (']' :: rest)) e hg hi hw0
        (notDigitStart_append_ws w _ hw (notDigitStart_cons _ _ (by decide))) hfe
      have hE : stringifyElems gap ind (',' :: sw) (JsonList.cons e JsonList.nil) =
          stringifyJson gap ind e := rfl
      rw [hE]
      simp only [parseElems]
      rw [hP]
      simp [skipWs_ws_append _ _ hw, skipWs_cons_not (']' : Char) rest (by decide)]
    | cons e2 tl2 =>
      have hfe : fuelJson e ≤ f := by
        have h1 : fuelList (JsonList.cons e (JsonList.cons e2 tl2)) =
            1 + max (fuelJson e) (fuelList (JsonList.cons e2 tl2)) := rfl
        omega
      have hft : fuelList (JsonList.cons e2 tl2) ≤ f := by
        have h1 : fuelList (JsonList.cons e (JsonList.cons e2 tl2)) =
            1 + max (fuelJson e) (fuelList (JsonList.cons e2 tl2)) := rfl
        omega
      have hE : stringifyElems gap ind (',' :: sw) (JsonList.cons e (JsonList.cons e2 tl2)) =
          stringifyJson gap ind e ++ ((',' :: sw) ++
            stringifyElems gap ind (',' :: sw) (JsonList.cons e2 tl2)) := by
        have h1 : stringifyElems gap ind (',' :: sw) (JsonList.cons e (JsonList.cons e2 tl2)) =
            stringifyJson gap ind e ++ (',' :: sw) ++
              stringifyElems gap ind (',' :: sw) (JsonList.cons e2 tl2) := rfl
        rw [h1, List.append_assoc]
      rw [hE]
      have hrest2 : (stringifyJson gap ind e ++ ((',' :: sw) ++
            stringifyElems gap ind (',' :: sw) (JsonList.cons e2 tl2))) ++
          (w ++ (']' :: rest)) =
          stringifyJson gap ind e ++ (',' :: (sw ++
            (stringifyElems gap ind (',' :: sw) (JsonList.cons e2 tl2) ++
              (w ++ (']' :: rest))))) := by
        simp [List.append_assoc]
      rw [hrest2]
      have hP := parse_stringify f gap ind w0 (',' :: (sw ++
        (stringifyElems gap ind (',' :: sw) (JsonList.cons e2 tl2) ++
          (w ++ (']' :: rest))))) e hg hi hw0 (notDigitStart_cons _ _ (by decide)) hfe
      have hQ := parseElems_stringify f gap ind sw sw w rest e2 tl2 hg hi hsw hsw hw hft
      simp only [parseElems]
      rw [hP]
      simp [skipWs_cons_not (',' : Char)
        (sw ++ (stringifyElems gap ind (',' :: sw) (JsonList.cons e2 tl2) ++
          (w ++ (']' :: rest)))) (by decide), hQ]

theorem parseMembers_stringify (fuel : Nat) (gap ind sw pad w0 w rest : List Char)
    (k : String) (v : Json) (tl : JsonFields)
    (hg : wsList gap) (hi : wsList ind) (hsw : wsList sw) (hpad : wsList pad)
    (hw0 : wsList w0) (hw : wsList w)
    (hf : fuelFields (JsonFields.cons k v tl) ≤ fuel) :
    parseMembers fuel
        (w0 ++ (stringifyMembers gap ind (',' :: sw) pad (JsonFields.cons k v tl) ++
          (w ++ ('\x7d' :: rest)))) =
      some (JsonFields.cons k v tl, rest) := by
  cases fuel with
  | zero =>
    exact absurd hf (by
      have h1 : fuelFields (JsonFields.cons k v tl) = 1 + max (fuelJson v) (fuelFields tl) := rfl
      omega)
  | succ f =>
    cases tl with
    | nil =>
      have hfv : fuelJson v ≤ f := by
        have h1 : fuelFields (JsonFields.cons k v JsonFields.nil) =
            1 + max (fuelJson v) 1 := rfl
        omega
      have hM : stringifyMembers gap ind (',' :: sw) pad (JsonFields.cons k v JsonFields.nil) ++
            (w ++ ('\x7d' :: rest)) =
          '"' :: (escChars k ++ ('"' :: (':' :: (pad ++
            (stringifyJson gap ind v ++ (w ++ ('\x7d' :: rest))))))) := by
        have h1 : stringifyMembers gap ind (',' :: sw) pad (JsonFields.cons k v JsonFields.nil) =
            quoteChars k ++ ':' :: pad ++ stringifyJson gap ind v := rfl
        rw [h1]
        simp [quoteChars, List.append_assoc]
      have hskipM : skipWs (w0 ++
            (stringifyMembers gap ind (',' :: sw) pad (JsonFields.cons k v JsonFields.nil) ++
              (w ++ ('\x7d' :: rest)))) =
          '"' :: (escChars k ++ ('"' :: (':' :: (pad ++
            (stringifyJson gap ind v ++ (w ++ ('\x7d' :: rest))))))) := by
        rw [skipWs_ws_append _ _ hw0, hM]
        exact skipWs_cons_not _ _ (by decide)
      have hT := parseStringBody_quote k
        ((escChars k ++ ('"' :: (':' :: (pad ++
          (stringifyJson gap ind v ++ (w ++ ('\x7d' :: rest))))))).length + 1)
        (':' :: (pad ++ (stringifyJson gap ind v ++ (w ++ ('\x7d' :: rest)))))
        (by simp [List.length_append]; omega)
      simp only [List.length_append, List.length_cons] at hT
      have hPv := parse_stringify f gap ind pad (w ++ ('\x7d' :: rest)) v hg hi hpad
        (notDigitStart_append_ws w _ hw (notDigitStart_cons _ _ (by decide))) hfv
      simp only [parseMembers]
      rw [hskipM]
      simp [hT, skipWs_cons_not (':' : Char) _ (by decide), hPv,
        skipWs_ws_append _ _ hw, skipWs_cons_not ('\x7d' : Char) rest (by decide)]
    | cons k2 v2 tl2 =>
      have hfv : fuelJson v ≤ f := by
        have h1 : fuelFields (JsonFields.cons k v (JsonFields.cons k2 v2 tl2)) =
            1 + max (fuelJson v) (fuelFields (JsonFields.cons k2 v2 tl2)) := rfl
        omega
      have hft : fuelFields (JsonFields.cons k2 v2 tl2) ≤ f := by
        have h1 : fuelFields (JsonFields.cons k v (JsonFields.cons k2 v2 tl2)) =
            1 + max (fuelJson v) (fuelFields (JsonFields.cons k2 v2 tl2)) := rfl
        omega
      have hM : stringifyMembers gap ind (',' :: sw) pad
            (JsonFields.cons k v (JsonFields.cons k2 v2 tl2)) ++ (w ++ ('\x7d' :: rest)) =
          '"' :: (escChars k ++ ('"' :: (':' :: (pad ++
            (stringifyJson gap ind v ++ (',' :: (sw ++
              (stringifyMembers gap ind (',' :: sw) pad (JsonFields.cons k2 v2 tl2) ++
                (w ++ ('\x7d' :: rest)))))))))) := by
        have h1 : stringifyMembers gap ind (',' :: sw) pad
              (JsonFields.cons k v (JsonFields.cons k2 v2 tl2)) =
            (quoteChars k ++ ':' :: pad ++ stringifyJson gap ind v) ++ (',' :: sw) ++
              stringifyMembers gap ind (',' :: sw) pad (JsonFields.cons k2 v2 tl2) := rfl
        rw [h1]
        simp [quoteChars, List.append_assoc]
      have hskipM : skipWs (w0 ++
            (stringifyMembers gap ind (',' :: sw) pad
                (JsonFields.cons k v (JsonFields.cons k2 v2 tl2)) ++
              (w ++ ('\x7d' :: rest)))) =
          '"' :: (escChars k ++ ('"' :: (':' :: (pad ++
            (stringifyJson gap ind v ++ (',' :: (sw ++
              (stringifyMembers gap ind (',' :: sw) pad (JsonFields.cons k2 v2 tl2) ++
                (w ++ ('\x7d' :: rest)))))))))) := by
        rw [skipWs_ws_append _ _ hw0, hM]
        exact skipWs_cons_not _ _ (by decide)
      have hT := parseStringBody_quote k
        ((escChars k ++ ('"' :: (':' :: (pad ++
          (stringifyJson gap ind v ++ (',' :: (sw ++
            (stringifyMembers gap ind (',' :: sw) pad (JsonFields.cons k2 v2 tl2) ++
              (w ++ ('\x7d' :: rest)))))))))).length + 1)
        (':' :: (pad ++ (stringifyJson gap ind v ++ (',' :: (sw ++
          (stringifyMembers gap ind (',' :: sw) pad (JsonFields.cons k2 v2 tl2) ++
            (w ++ ('\x7d' :: rest))))))))
        (by simp [List.length_append]; omega)
      simp only [List.length_append, List.length_cons] at hT
      have hPv := parse_stringify f gap ind pad (',' :: (sw ++
        (stringifyMembers gap ind (',' :: sw) pad (JsonFields.cons k2 v2 tl2) ++
          (w ++ ('\x7d' :: rest))))) v hg hi hpad (notDigitStart_cons _ _ (by decide)) hfv
      have hR := parseMembers_stringify f gap ind sw pad sw w rest k2 v2 tl2
        hg hi hsw hpad hsw hw hft
      simp only [parseMembers]
      rw [hskipM]
      simp [hT, skipWs_cons_not (':' : Char) _ (by decide), hPv,
        skipWs_cons_not (',' : Char) _ (by decide), hR]
end

/-- Round trip at the `JSON.parse` / `JSON.stringify` level: parsing the
serialized text of a document, for any numeric `space`, recovers the
document. -/
theorem jsonParse_jsonStringify (j : Json) (space : Nat) :
    jsonParse (jsonStringify j space) = some j := by
  have hws : wsList (List.replicate (min space 10) ' ') := by
    intro c hc
    rw [List.eq_of_mem_replicate hc]
    decide
  have hfuel : fuelJson j ≤
      (stringifyJson (List.replicate (min space 10) ' ') [] j).length + 1 := by
    have := fuelJson_le_len (List.replicate (min space 10) ' ') [] j
    omega
  have hP := parse_stringify
    ((stringifyJson (List.replicate (min space 10) ' ') [] j).length + 1)
    (List.replicate (min space 10) ' ') [] [] [] j hws wsList_nil wsList_nil trivial hfuel
  simp only [List.nil_append, List.append_nil] at hP
  unfold jsonStringify jsonParse
  have hlen : (String.mk (stringifyJson (List.replicate (min space 10) ' ') [] j)).length =
      (stringifyJson (List.replicate (min space 10) ' ') [] j).length := rfl
  have hdata : (String.mk (stringifyJson (List.replicate (min space 10) ' ') [] j)).data =
      stringifyJson (List.replicate (min space 10) ' ') [] j := rfl
  rw [hlen, hdata, hP]
  simp [skipWs]

/-! Adapter-level helper lemmas. -/

theorem zodEngine_ok (input : EngineInput) (sv : SchemaVal)
    (hret : retainedSchema input = Except.ok sv) :
    zodEngine input = Except.ok (mkEngine sv) := by
  unfold zodEngine
  rw [hret]

theorem engine_eq (input : EngineInput) (sv : SchemaVal) (e : GhiiEngine)
    (hret : retainedSchema input = Except.ok sv)
    (heng : zodEngine input = Except.ok e) : e = mkEngine sv := by
  rw [zodEngine_ok input sv hret] at heng
  exact (Except.ok.inj heng).symm

theorem mkEngine_validate_failure (s : ZodSchema) (v : Value) (issues : List ZodIssue)
    (hfail : s.check v = SafeParseResult.failure issues) :
    (mkEngine (SchemaVal.zodSchema s)).validate v =
      Except.ok (ValidationOutcome.failure (issues.map toIssue)) := by
  simp [mkEngine, zodEngineValidate, zSafeParse, hfail]

theorem mkEngine_validate_success (s : ZodSchema) (v d : Value)
    (hsucc : s.check v = SafeParseResult.success d) :
    (mkEngine (SchemaVal.zodSchema s)).validate v =
      Except.ok (ValidationOutcome.success d) := by
  simp [mkEngine, zodEngineValidate, zSafeParse, hsucc]

theorem runCalls_state (st : SchemaVal) (cs : List EngineCall) : (runCalls st cs).2 = st := by
  induction cs generalizing st with
  | nil => rfl
  | cons c cs ih =>
    have h1 : (runCall st c).2 = st := by cases c <;> rfl
    simp [runCalls, ih, h1]

/-! The claims. -/

/-- C1: for every candidate value the retained schema rejects, `validate`
returns a failure outcome whose `errors` sequence is derived one-to-one and
in order from the library's reported issue sequence — same length, no issue
dropped, reordered, deduplicated or merged — and the record at each index
has `path` the dot-join of that issue's path segments, `input` the
library-reported offending value, `details` the failure-kind code, `message`
the human-readable message, and the full raw issue retained verbatim in
`_raw`. -/
theorem c1_errors_one_to_one (input : EngineInput) (s : ZodSchema) (e : GhiiEngine)
    (hret : retainedSchema input = Except.ok (SchemaVal.zodSchema s))
    (heng : zodEngine input = Except.ok e)
    (v : Value) (issues : List ZodIssue)
    (hfail : s.check v = SafeParseResult.failure issues) :
    e.validate v = Except.ok (ValidationOutcome.failure (issues.map toIssue)) ∧
    (issues.map toIssue).length = issues.length ∧
    (∀ k : Nat, ∀ i : ZodIssue, issues[k]? = some i →
      (issues.map toIssue)[k]? = some
        { path := joinPath i.path, input := i.input, details := i.code,
          message := i.message, _raw := i }) := by
  obtain rfl := engine_eq input _ e hret heng
  refine ⟨mkEngine_validate_failure s v issues hfail, by simp, ?_⟩
  intro k i hk
  rw [List.getElem?_map, hk]
  rfl

/-- Witness for C1: the demo schema rejects `undefined` with two issues. -/
theorem c1_witness :
    demoSchema.check Value.undef = SafeParseResult.failure [issueName, issueAge] ∧
    ((mkEngine (SchemaVal.zodSchema demoSchema)).validate Value.undef =
      Except.ok (ValidationOutcome.failure ([issueName, issueAge].map toIssue)) ∧
    ([issueName, issueAge].map toIssue).length = [issueName, issueAge].length ∧
    (∀ k : Nat, ∀ i : ZodIssue, [issueName, issueAge][k]? = some i →
      ([issueName, issueAge].map toIssue)[k]? = some
        { path := joinPath i.path, input := i.input, details := i.code,
          message := i.message, _raw := i })) :=
  ⟨rfl, c1_errors_one_to_one (EngineInput.direct (SchemaVal.zodSchema demoSchema)) demoSchema
    (mkEngine (SchemaVal.zodSchema demoSchema)) rfl rfl Value.undef [issueName, issueAge] rfl⟩

/-- C2: `validate` delegates to the library's non-throwing parse entry
point: its result is exactly the translated `z.safeParse` outcome, and for
every candidate value there is a returned outcome — validation failure is
reported through the tagged return value, never thrown. -/
theorem c2_validate_total (input : EngineInput) (s : ZodSchema) (e : GhiiEngine)
    (hret : retainedSchema input = Except.ok (SchemaVal.zodSchema s))
    (heng : zodEngine input = Except.ok e) (v : Value) :
    e.validate v = Except.ok (match s.check v with
      | SafeParseResult.success d => ValidationOutcome.success d
      | SafeParseResult.failure issues => ValidationOutcome.failure (issues.map toIssue)) ∧
    ∃ out, e.validate v = Except.ok out := by
  obtain rfl := engine_eq input _ e hret heng
  have h : (mkEngine (SchemaVal.zodSchema s)).validate v = Except.ok (match s.check v with
      | SafeParseResult.success d => ValidationOutcome.success d
      | SafeParseResult.failure issues => ValidationOutcome.failure (issues.map toIssue)) := by
    cases hc : s.check v with
    | success d => simp [mkEngine, zodEngineValidate, zSafeParse, hc]
    | failure issues => simp [mkEngine, zodEngineValidate, zSafeParse, hc]
  exact ⟨h, ⟨_, h⟩⟩

/-- Witness for C2 at the demo schema and a failing input. -/
theorem c2_witness :
    (mkEngine (SchemaVal.zodSchema demoSchema)).validate Value.undef =
      Except.ok (match demoSchema.check Value.undef with
        | SafeParseResult.success d => ValidationOutcome.success d
        | SafeParseResult.failure issues =>
          ValidationOutcome.failure (issues.map toIssue)) ∧
    ∃ out, (mkEngine (SchemaVal.zodSchema demoSchema)).validate Value.undef =
      Except.ok out :=
  c2_validate_total (EngineInput.direct (SchemaVal.zodSchema demoSchema)) demoSchema
    (mkEngine (SchemaVal.zodSchema demoSchema)) rfl rfl Value.undef

/-- C3: for every candidate value the retained schema accepts, `validate`
returns a success outcome whose `value` is exactly the library's own parse
output for that schema and input (the adapter does not alter it); it equals
what the throwing `z.parse` would return. -/
theorem c3_success_value (input : EngineInput) (s : ZodSchema) (e : GhiiEngine)
    (hret : retainedSchema input = Except.ok (SchemaVal.zodSchema s))
    (heng : zodEngine input = Except.ok e) (v d : Value)
    (hsucc : s.check v = SafeParseResult.success d) :
    e.validate v = Except.ok (ValidationOutcome.success d) ∧
    zParse (SchemaVal.zodSchema s) v = Except.ok d := by
  obtain rfl := engine_eq input _ e hret heng
  exact ⟨mkEngine_validate_success s v d hsucc, by simp [zParse, zSafeParse, hsucc]⟩

/-- Witness for C3: the demo schema accepts `true` and returns it. -/
theorem c3_witness :
    demoSchema.check (Value.json (Json.bool true)) =
      SafeParseResult.success (Value.json (Json.bool true)) ∧
    ((mkEngine (SchemaVal.zodSchema demoSchema)).validate (Value.json (Json.bool true)) =
      Except.ok (ValidationOutcome.success (Value.json (Json.bool true))) ∧
    zParse (SchemaVal.zodSchema demoSchema) (Value.json (Json.bool true)) =
      Except.ok (Value.json (Json.bool true))) :=
  ⟨rfl, c3_success_value (EngineInput.direct (SchemaVal.zodSchema demoSchema)) demoSchema
    (mkEngine (SchemaVal.zodSchema demoSchema)) rfl rfl
    (Value.json (Json.bool true)) (Value.json (Json.bool true)) rfl⟩

/-- C4: every issue's `path` in every failure outcome is the dot-join of
the raw issue's path segments (performed by the adapter's own `joinPath`,
with numeric indices rendered in decimal), and the empty segment list joins
to the empty string; concretely, segments `settings`, `1`, `value` join to
`settings.1.value`. -/
theorem c4_dotted_paths (input : EngineInput) (s : ZodSchema) (e : GhiiEngine)
    (hret : retainedSchema input = Except.ok (SchemaVal.zodSchema s))
    (heng : zodEngine input = Except.ok e) (v : Value) (errors : List Issue)
    (hfail : e.validate v = Except.ok (ValidationOutcome.failure errors)) :
    (∀ err ∈ errors, err.path = joinPath err._raw.path ∧
      err.path = String.intercalate "." (err._raw.path.map segString) ∧
      (err._raw.path = [] → err.path = "")) ∧
    joinPath [] = "" ∧
    joinPath [PathSeg.key "settings", PathSeg.idx 1, PathSeg.key "value"] =
      "settings.1.value" := by
  obtain rfl := engine_eq input _ e hret heng
  refine ⟨?_, rfl, by decide⟩
  cases hc : s.check v with
  | success d =>
    rw [mkEngine_validate_success s v d hc] at hfail
    exact absurd (Except.ok.inj hfail) (by simp)
  | failure issues =>
    rw [mkEngine_validate_failure s v issues hc] at hfail
    have herr : errors = issues.map toIssue :=
      (ValidationOutcome.failure.inj (Except.ok.inj hfail)).symm
    intro err hmem
    rw [herr] at hmem
    obtain ⟨i, hi, rfl⟩ := List.mem_map.mp hmem
    refine ⟨rfl, rfl, fun hp => ?_⟩
    have hp2 : i.path = [] := hp
    show joinPath i.path = ""
    rw [hp2]
    rfl

/-- Witness for C4: the demo schema's failure outcome on `undefined`. -/
theorem c4_witness :
    (mkEngine (SchemaVal.zodSchema demoSchema)).validate Value.undef =
      Except.ok (ValidationOutcome.failure ([issueName, issueAge].map toIssue)) ∧
    ((∀ err ∈ [issueName, issueAge].map toIssue, err.path = joinPath err._raw.path ∧
      err.path = String.intercalate "." (err._raw.path.map segString) ∧
      (err._raw.path = [] → err.path = "")) ∧
    joinPath [] = "" ∧
    joinPath [PathSeg.key "settings", PathSeg.idx 1, PathSeg.key "value"] =
      "settings.1.value") :=
  ⟨rfl, c4_dotted_paths (EngineInput.direct (SchemaVal.zodSchema demoSchema)) demoSchema
    (mkEngine (SchemaVal.zodSchema demoSchema)) rfl rfl Value.undef
    ([issueName, issueAge].map toIssue) rfl⟩

/-- C5: `toJsonSchema()` equals `toJsonSchema(false)` and both produce the
compact serialization (`space = 0`, no added whitespace) of the library's
conversion result; `toJsonSchema(true)` produces the two-space-indented,
newline-separated serialization of the same document; parsing either text
as JSON recovers that same document.  The result is a pure function of the
retained schema and the flag by construction. -/
theorem c5_tojsonschema_formats (input : EngineInput) (s : ZodSchema) (e : GhiiEngine)
    (hret : retainedSchema input = Except.ok (SchemaVal.zodSchema s))
    (heng : zodEngine input = Except.ok e) (js : Json)
    (hconv : s.jsonSchemaResult = Except.ok js) :
    toJsonSchemaDefault e = e.toJsonSchema false ∧
    e.toJsonSchema false = Except.ok (jsonStringify js 0) ∧
    e.toJsonSchema true = Except.ok (jsonStringify js 2) ∧
    jsonParse (jsonStringify js 0) = some js ∧
    jsonParse (jsonStringify js 2) = some js := by
  obtain rfl := engine_eq input _ e hret heng
  refine ⟨rfl, ?_, ?_, jsonParse_jsonStringify js 0, jsonParse_jsonStringify js 2⟩
  · simp [mkEngine, zodEngineToJsonSchema, zToJSONSchema, hconv]
  · simp [mkEngine, zodEngineToJsonSchema, zToJSONSchema, hconv]

/-- Witness for C5 at the demo schema and its JSON-Schema document. -/
theorem c5_witness :
    demoSchema.jsonSchemaResult = Except.ok demoJsonSchema ∧
    (toJsonSchemaDefault (mkEngine (SchemaVal.zodSchema demoSchema)) =
      (mkEngine (SchemaVal.zodSchema demoSchema)).toJsonSchema false ∧
    (mkEngine (SchemaVal.zodSchema demoSchema)).toJsonSchema false =
      Except.ok (jsonStringify demoJsonSchema 0) ∧
    (mkEngine (SchemaVal.zodSchema demoSchema)).toJsonSchema true =
      Except.ok (jsonStringify demoJsonSchema 2) ∧
    jsonParse (jsonStringify demoJsonSchema 0) = some demoJsonSchema ∧
    jsonParse (jsonStringify demoJsonSchema 2) = some demoJsonSchema) :=
  ⟨rfl, c5_tojsonschema_formats (EngineInput.direct (SchemaVal.zodSchema demoSchema))
    demoSchema (mkEngine (SchemaVal.zodSchema demoSchema)) rfl rfl demoJsonSchema rfl⟩

/-- C6: a callable input is applied exactly once, synchronously, with the
library namespace `z` (the constructor's factory-call record is the
one-element list `[z]`); the returned schema is retained and the engine is
`mkEngine` of it alone, so neither `validate` nor `toJsonSchema` can invoke
the factory again; a factory throw propagates uncaught; a non-callable
input is retained directly and the factory-call record is empty. -/
theorem c6_factory_once (f : ZodNamespace → Except JsError SchemaVal) :
    constructionFactoryCalls (EngineInput.factory f) = [ZodNamespace.z] ∧
    retainedSchema (EngineInput.factory f) = f ZodNamespace.z ∧
    (∀ sv, f ZodNamespace.z = Except.ok sv →
      zodEngine (EngineInput.factory f) = Except.ok (mkEngine sv)) ∧
    (∀ err, f ZodNamespace.z = Except.error err →
      zodEngine (EngineInput.factory f) = Except.error err) ∧
    (∀ sv, retainedSchema (EngineInput.direct sv) = Except.ok sv ∧
      constructionFactoryCalls (EngineInput.direct sv) = []) := by
  refine ⟨rfl, rfl, ?_, ?_, fun sv => ⟨rfl, rfl⟩⟩
  · intro sv h
    exact zodEngine_ok _ sv h
  · intro err h
    simp [zodEngine, retainedSchema, h]

/-- C7 counterexample: constructing the engine from a non-callable value
that is not a usable schema does not fail — it returns an adapter. -/
theorem c7_counterexample :
    zodEngine (EngineInput.direct (SchemaVal.notSchema (Value.json (Json.num 42)))) =
      Except.ok (mkEngine (SchemaVal.notSchema (Value.json (Json.num 42)))) := rfl

/-- C7 (amended): when the supplied value is neither callable nor a usable
schema, the constructor does not fail; it retains the value and returns an
adapter, and the failure surfaces uncaught only when `validate` or
`toJsonSchema` is first called, as the library's `TypeError`. -/
theorem c7_nonschema_deferred (v : Value) :
    zodEngine (EngineInput.direct (SchemaVal.notSchema v)) =
      Except.ok (mkEngine (SchemaVal.notSchema v)) ∧
    (∀ x, (mkEngine (SchemaVal.notSchema v)).validate x =
      Except.error (JsError.typeError "z.safeParse: not a Zod schema")) ∧
    (∀ pretty, (mkEngine (SchemaVal.notSchema v)).toJsonSchema pretty =
      Except.error (JsError.typeError "z.toJSONSchema: not a Zod schema")) :=
  ⟨rfl, fun _ => rfl, fun _ => rfl⟩

/-- C8: an adapter built from a factory and an adapter built directly from
the schema that factory returns are the same engine, and in particular
their `validate` and `toJsonSchema` agree on every input. -/
theorem c8_factory_direct_equiv (f : ZodNamespace → Except JsError SchemaVal) (sv : SchemaVal)
    (h : f ZodNamespace.z = Except.ok sv) :
    zodEngine (EngineInput.factory f) = zodEngine (EngineInput.direct sv) ∧
    (∀ e1 e2, zodEngine (EngineInput.factory f) = Except.ok e1 →
      zodEngine (EngineInput.direct sv) = Except.ok e2 →
      (∀ v, e1.validate v = e2.validate v) ∧
      (∀ pretty, e1.toJsonSchema pretty = e2.toJsonSchema pretty)) := by
  have h1 : zodEngine (EngineInput.factory f) = Except.ok (mkEngine sv) := zodEngine_ok _ sv h
  have h2 : zodEngine (EngineInput.direct sv) = Except.ok (mkEngine sv) := rfl
  refine ⟨by rw [h1, h2], ?_⟩
  intro e1 e2 he1 he2
  rw [h1] at he1
  rw [h2] at he2
  obtain rfl := Except.ok.inj he1
  obtain rfl := Except.ok.inj he2
  exact ⟨fun _ => rfl, fun _ => rfl⟩

/-- Witness for C8: the demo factory versus its returned schema. -/
theorem c8_witness :
    demoFactory ZodNamespace.z = Except.ok (SchemaVal.zodSchema demoSchema) ∧
    zodEngine (EngineInput.factory demoFactory) =
      zodEngine (EngineInput.direct (SchemaVal.zodSchema demoSchema)) :=
  ⟨rfl, (c8_factory_direct_equiv demoFactory (SchemaVal.zodSchema demoSchema) rfl).1⟩

/-- C9: the adapter has no internal mutable state — its entire state is the
immutable retained schema, every call returns that state unchanged, and a
`validate` call with a given input returns the same outcome no matter which
call history (of `validate` and `toJsonSchema` calls) preceded it. -/
theorem c9_validate_pure (sv : SchemaVal) (pre post : List EngineCall) (v : Value) :
    (runCalls sv pre).2 = sv ∧
    (runCall (runCalls sv pre).2 (EngineCall.validate v)).1 =
      (runCall (runCalls sv post).2 (EngineCall.validate v)).1 ∧
    (runCall sv (EngineCall.validate v)).1 =
      CallResult.validated ((mkEngine sv).validate v) := by
  refine ⟨runCalls_state sv pre, ?_, rfl⟩
  rw [runCalls_state sv pre, runCalls_state sv post]

/-- C10: the dotted path does not identify the offending field uniquely:
the one-segment path `a.b` and the two-segment path `a`, `b` join to the
same string, because the adapter joins with `.` and does not escape dots
inside a segment; two issues with those distinct raw paths yield equal
`path` strings. -/
theorem c10_join_not_injective :
    joinPath [PathSeg.key "a.b"] = joinPath [PathSeg.key "a", PathSeg.key "b"] ∧
    [PathSeg.key "a.b"] ≠ [PathSeg.key "a", PathSeg.key "b"] ∧
    ∃ i1 i2 : ZodIssue, i1.path ≠ i2.path ∧ (toIssue i1).path = (toIssue i2).path := by
  exact ⟨by decide, by decide, issueDotSingle, issueDotPair, by decide, by decide⟩
